import Mathlib

/-!
Verification of the intrusive scheduling primitives of MyCodeSnippets.

The intrusive queue (`src/cpp/intr_queue.cpp`), the lock-free stack
(`src/cpp/atomic_queue.cpp`), the fixed work-stealing pool
(`src/cpp/static_thread_pool.cpp`) and the elastic blocking pool
(`src/cpp/blocking_thread_pool.cpp`) are modelled with an explicit heap:
every task node is identified by a natural-number address, and the heap maps
each address to the node's embedded next pointer (`none` plays nullptr).
All operations are direct transliterations of the C++ member functions.
-/

set_option autoImplicit false

namespace Snippets

/-- The heap of next pointers: address `a` holds the `next` field of node `a`. -/
abbrev Heap := Nat → Option Nat

/-- Store `v` into the next field of node `a` (the C++ `item->*next = v`). -/
def hupd (h : Heap) (a : Nat) (v : Option Nat) : Heap :=
  fun n => if n = a then v else h n

/-- The two pointer fields of `Queue` in `intr_queue.cpp`. -/
structure QState where
  mHead : Option Nat
  mTail : Option Nat
deriving DecidableEq

/-- `Queue::empty`: `mHead == nullptr`. -/
def queueEmpty (q : QState) : Bool :=
  q.mHead.isNone

/-- `Queue::popFront()`:
`item = exchange(mHead, mHead->next); if (item->next == nullptr) mTail = nullptr;`. -/
def popFront (h : Heap) (q : QState) : Option Nat × QState :=
  match q.mHead with
  | none => (none, q)
  | some item =>
      (some item, { mHead := h item, mTail := if h item = none then none else q.mTail })

/-- `Queue::pushFront(item)`: `item->next = mHead; mHead = item; if (mTail == nullptr) mTail = item;`. -/
def pushFront (h : Heap) (q : QState) (item : Nat) : Heap × QState :=
  (hupd h item q.mHead,
   { mHead := some item, mTail := if q.mTail = none then some item else q.mTail })

/-- `Queue::pushBack(item)`:
`item->next = nullptr; if (mTail == nullptr) mHead = item; else mTail->next = item; mTail = item;`. -/
def pushBack (h : Heap) (q : QState) (item : Nat) : Heap × QState :=
  let h1 := hupd h item none
  match q.mTail with
  | none => (h1, { mHead := some item, mTail := some item })
  | some t => (hupd h1 t (some item), { mHead := q.mHead, mTail := some item })

/-- The cursor loop of `Queue::popFront(n)`:
`for (i = 1; i < n; i++) { if (qTail == nullptr) break; qTail = qTail->next; }`,
where the second argument is the number of remaining iterations (`n - i`). -/
def advanceTail (h : Heap) : Option Nat → Nat → Option Nat
  | t, 0 => t
  | none, _ + 1 => none
  | some a, k + 1 => advanceTail h (h a) k

/-- `Queue::popFront(n)`. The result is `(heap, remaining self, returned queue)`.
The cursor `q.mTail` starts at `mHead` and is advanced `n - 1` times.  In the
cut branch the source reads `mHead = q.mTail->next` before `q.mTail->next = nullptr`
and does not touch `this->mTail`; in the exhausted branch it clears both of
`this`'s pointers and returns the cursor queue with a null tail. -/
def popFrontN (h : Heap) (q : QState) (n : Nat) : Heap × QState × QState :=
  match advanceTail h q.mHead (n - 1) with
  | some t =>
      (hupd h t none,
       { mHead := h t, mTail := q.mTail },
       { mHead := q.mHead, mTail := some t })
  | none =>
      (h, { mHead := none, mTail := none }, { mHead := q.mHead, mTail := none })

/-- `p->next = v` for a possibly null `p`.  The C++ (`mTail->*next = ...`)
dereferences unconditionally; the `none` case is unreachable under the
queue invariant and is modelled as a no-op. -/
def setNext (h : Heap) : Option Nat → Option Nat → Heap
  | some a, v => hupd h a v
  | none, _ => h

/-- `Queue::append(other)`.  Result `(heap, self, other)`; `other` is consumed. -/
def appendQ (h : Heap) (self other : QState) : Heap × QState × QState :=
  if other.mHead = none then (h, self, other)
  else if self.mHead = none then
    (h, { mHead := other.mHead, mTail := other.mTail }, ⟨none, none⟩)
  else
    (setNext h self.mTail other.mHead,
     { mHead := self.mHead, mTail := other.mTail }, ⟨none, none⟩)

/-- `Queue::preappend(other)`.  Result `(heap, self, other)`; `other` is consumed. -/
def preappendQ (h : Heap) (self other : QState) : Heap × QState × QState :=
  if other.mHead = none then (h, self, other)
  else
    (setNext h other.mTail self.mHead,
     { mHead := other.mHead, mTail := if self.mTail = none then other.mTail else self.mTail },
     ⟨none, none⟩)

/-- The while loop of `Queue::from(list)`:
`while (list) { n = list->next; list->next = newHead; newHead = list; list = n; }`.
Arguments: heap, `newHead`, `list`, fuel.  The fuel only bounds the iteration
count; any fuel at least the length of the (acyclic) input chain produces
exactly the loop's result. -/
def fromGo : Heap → Option Nat → Option Nat → Nat → Heap × Option Nat
  | h, newHead, _, 0 => (h, newHead)
  | h, newHead, none, _ + 1 => (h, newHead)
  | h, newHead, some a, fuel + 1 => fromGo (hupd h a newHead) (some a) (h a) fuel

/-- `Queue::from(list)`: run the reversal loop, then
`q.mHead = newHead; q.mTail = list` (the original head of the chain). -/
def fromQ (h : Heap) (list : Option Nat) (fuel : Nat) : Heap × QState :=
  ((fromGo h none list fuel).1, { mHead := (fromGo h none list fuel).2, mTail := list })

/-- The drive loop of the tests: `while (!q.empty()) { job = q.popFront(); ... }`,
collecting the popped addresses in order.  Fuel bounds the iteration count. -/
def drainGo (h : Heap) : QState → Nat → List Nat × QState
  | q, 0 => ([], q)
  | q, fuel + 1 =>
      match popFront h q with
      | (none, q1) => ([], q1)
      | (some a, q1) => (a :: (drainGo h q1 fuel).1, (drainGo h q1 fuel).2)

/-- `ChainSeg h p l pend`: starting at pointer `p` and following the next
pointers of `h`, one traverses exactly the addresses `l` and ends up at the
pointer `pend`. `ChainSeg h p l none` says `p` heads a null-terminated chain
listing `l` in traversal order. -/
inductive ChainSeg (h : Heap) : Option Nat → List Nat → Option Nat → Prop
  | nil (p : Option Nat) : ChainSeg h p [] p
  | cons {a : Nat} {l : List Nat} {pend : Option Nat} :
      ChainSeg h (h a) l pend → ChainSeg h (some a) (a :: l) pend

/-- The structural invariant of the data model: the tail pointer is absent
iff the queue is empty (head absent). -/
def tailInvariant (q : QState) : Bool :=
  q.mHead.isNone == q.mTail.isNone

/-- A heap whose every next field is null. -/
def hNil : Heap := fun _ => none

/-- A two-node chain `0 -> 1 -> nullptr`. -/
def hPair : Heap := fun n => if n = 0 then some 1 else none

/-- `AtomicQueue::pushFront(t)` at its linearization point.  The CAS retry
loop (`t->next = oldHead; CAS(mHead, oldHead, t)`) writes only the private
node `t` until the successful CAS publishes it, so each push takes effect
atomically as: set `t`'s next to the current head, make `t` the head.
State is `(heap, stack head pointer)`. -/
def atomicPushFront (h : Heap) (head : Option Nat) (t : Nat) : Heap × Option Nat :=
  (hupd h t head, some t)

/-- A sequence of `AtomicQueue::pushFront` calls executed back to back
(one linearized push per list element, first element pushed first). -/
def atomicPushAll : Heap → Option Nat → List Nat → Heap × Option Nat
  | h, head, [] => (h, head)
  | h, head, t :: ts => atomicPushAll (atomicPushFront h head t).1 (atomicPushFront h head t).2 ts

/-- `AtomicQueue::popAll()`: exchange the head with nullptr and convert the
drained chain with `Queue::from`.  Returns the new queue; the stack head
becomes `none`. -/
def atomicPopAll (h : Heap) (head : Option Nat) (fuel : Nat) : Heap × QState :=
  fromQ h head fuel

/-- What one observation inside `StaticThreadPool::ThreadState::pop` does:
either the function returns (a possibly null task pointer together with the
updated queue), or it blocks on the condition variable and re-observes later. -/
inductive PopOutcome where
  | ret : Option Nat → QState → PopOutcome
  | wait : PopOutcome
deriving DecidableEq

/-- `ThreadState::pop`:
`while (mQueue.empty()) { if (mStopRequested) return nullptr; mCv.wait(lk); } return mQueue.popFront();`.
One iteration of the decision, taken with the lock held: on an empty queue
return null if the stop flag is set, otherwise wait; on a non-empty queue
return `popFront()`. -/
def threadStatePop (h : Heap) (q : QState) (stopRequested : Bool) : PopOutcome :=
  if q.mHead = none then
    (if stopRequested then PopOutcome.ret none q else PopOutcome.wait)
  else
    PopOutcome.ret (popFront h q).1 (popFront h q).2

/-- The counters of `BlockingThreadPool` (all `std::size_t` in the source;
they are modelled as unbounded naturals, with the source's `-= 1` becoming
truncated subtraction). -/
structure PoolCounters where
  mQueueSize : Nat
  mIdleCount : Nat
  mThreadCount : Nat
  mThreadLimits : Nat
deriving DecidableEq

/-- The loop body of `BlockingThreadPool::growPool`:
`while (mQueueSize > mIdleCount * 5 && mThreadCount < mThreadLimits) { mThreadCount += 1; mIdleCount += 1; notify_all; spawn detached worker; }`.
The second component counts the spawned workers.  The fuel only bounds the
iteration count: with fuel `mThreadLimits - mThreadCount` the guard always
fails no later than the fuel runs out, so `growPool` below is exactly the loop. -/
def growPoolGo : PoolCounters → Nat → PoolCounters × Nat
  | s, 0 => (s, 0)
  | s, f + 1 =>
      if s.mQueueSize > s.mIdleCount * 5 ∧ s.mThreadCount < s.mThreadLimits then
        ((growPoolGo { s with mThreadCount := s.mThreadCount + 1,
                              mIdleCount := s.mIdleCount + 1 } f).1,
         (growPoolGo { s with mThreadCount := s.mThreadCount + 1,
                              mIdleCount := s.mIdleCount + 1 } f).2 + 1)
      else (s, 0)

/-- `BlockingThreadPool::growPool()` (run with the shared lock held). -/
def growPool (s : PoolCounters) : PoolCounters × Nat :=
  growPoolGo s (s.mThreadLimits - s.mThreadCount)

/-- The shared state of `BlockingThreadPool`: the single queue plus the
counters, all mutated under the one lock. -/
structure EPoolState where
  heap : Heap
  queue : QState
  counters : PoolCounters

/-- The lock-protected atomic sections of `BlockingThreadPool`. -/
inductive EEvent where
  | enqueue (task : Nat)
  | beginBusy
  | popExec (task : Nat)
  | goIdle
  | timeoutExit
deriving DecidableEq

/-- One lock-protected section of `BlockingThreadPool`:
`enqueue` is `mQueue.pushBack(task); mQueueSize += 1; notify_one; growPool();`;
`beginBusy` is the `mIdleCount -= 1` at the top of the worker loop;
`popExec` is one body of the inner `while (!mQueue.empty())`:
`growPool(); task = mQueue.popFront();` followed by running the task unlocked;
`goIdle` is the `mIdleCount += 1` when the queue has drained;
`timeoutExit` is the timed-out wait with an empty queue:
`mIdleCount -= 1; mThreadCount -= 1; break;`. -/
inductive EStep : EPoolState → EEvent → EPoolState → Prop
  | enqueue (s : EPoolState) (task : Nat) :
      EStep s (EEvent.enqueue task)
        ⟨(pushBack s.heap s.queue task).1, (pushBack s.heap s.queue task).2,
         (growPool { s.counters with mQueueSize := s.counters.mQueueSize + 1 }).1⟩
  | beginBusy (s : EPoolState) :
      EStep s EEvent.beginBusy
        { s with counters := { s.counters with mIdleCount := s.counters.mIdleCount - 1 } }
  | popExec (s : EPoolState) (task : Nat) :
      (popFront s.heap s.queue).1 = some task →
      EStep s (EEvent.popExec task)
        ⟨s.heap, (popFront s.heap s.queue).2, (growPool s.counters).1⟩
  | goIdle (s : EPoolState) :
      EStep s EEvent.goIdle
        { s with counters := { s.counters with mIdleCount := s.counters.mIdleCount + 1 } }
  | timeoutExit (s : EPoolState) :
      s.queue.mHead = none →
      EStep s EEvent.timeoutExit
        { s with counters := { s.counters with
            mIdleCount := s.counters.mIdleCount - 1,
            mThreadCount := s.counters.mThreadCount - 1 } }

/-- Reflexive-transitive closure of `EStep` along a trace of events. -/
inductive ESteps : EPoolState → List EEvent → EPoolState → Prop
  | nil (s : EPoolState) : ESteps s [] s
  | cons {s s1 s2 : EPoolState} {e : EEvent} {tr : List EEvent} :
      EStep s e s1 → ESteps s1 tr s2 → ESteps s (e :: tr) s2

/-- Whether an event is an `enqueue`. -/
def isEnqueueEv : EEvent → Bool
  | EEvent.enqueue _ => true
  | _ => false

/-- A client operation on one sequential queue. -/
inductive QOp where
  | push (a : Nat)
  | pop
deriving DecidableEq

/-- The addresses pushed by a sequence of operations, in push order. -/
def pushesOf : List QOp → List Nat
  | [] => []
  | QOp.push a :: ops => a :: pushesOf ops
  | QOp.pop :: ops => pushesOf ops

/-- Run a sequence of `pushBack`/`popFront` calls on one queue with no
concurrent access; the third component lists the tasks returned by the
successful `popFront` calls, in return order. -/
def runOps : Heap → QState → List QOp → Heap × QState × List Nat
  | h, q, [] => (h, q, [])
  | h, q, QOp.push a :: ops => runOps (pushBack h q a).1 (pushBack h q a).2 ops
  | h, q, QOp.pop :: ops =>
      match (popFront h q).1 with
      | some a =>
          ((runOps h (popFront h q).2 ops).1,
           (runOps h (popFront h q).2 ops).2.1,
           a :: (runOps h (popFront h q).2 ops).2.2)
      | none => runOps h (popFront h q).2 ops

/-- The push-all-then-popAll round trip of the lock-free stack test
(`INTR_ATOMIC_QUEUE_MAIN_FUNC`): push every element of `ts` in order into an
empty stack, `popAll`, and drain the resulting queue. -/
def stackRoundTrip (h : Heap) (ts : List Nat) : List Nat :=
  (drainGo (atomicPopAll (atomicPushAll h none ts).1 (atomicPushAll h none ts).2 ts.length).1
           (atomicPopAll (atomicPushAll h none ts).1 (atomicPushAll h none ts).2 ts.length).2
           ts.length).1

/-- A queue holding the chain `0 -> 1` of `hPair`. -/
def qPair : QState := ⟨some 0, some 1⟩

/-- A queue holding the single node `0` (whose next field is null in `hNil`). -/
def qOne : QState := ⟨some 0, some 0⟩

/-- A queue holding the single node `1` (whose next field is null in `hNil`). -/
def qOneB : QState := ⟨some 1, some 1⟩

/-- Concrete counters: 100 pending tasks, no idle or live workers, limit 2. -/
def cW : PoolCounters := ⟨100, 0, 0, 2⟩

/-- Concrete elastic-pool state: empty queue, zeroed counters, worker limit 1. -/
def eW0 : EPoolState := ⟨hNil, ⟨none, none⟩, ⟨0, 0, 0, 1⟩⟩

/-- The state that `enqueue(7)` produces from `eW0`. -/
def eW1 : EPoolState :=
  ⟨(pushBack eW0.heap eW0.queue 7).1, (pushBack eW0.heap eW0.queue 7).2,
   (growPool { eW0.counters with mQueueSize := eW0.counters.mQueueSize + 1 }).1⟩

/-! Basic lemmas about the heap and chains. -/

theorem hupd_self (h : Heap) (a : Nat) (v : Option Nat) : hupd h a v a = v := by
  simp [hupd]

theorem hupd_ne (h : Heap) (a b : Nat) (v : Option Nat) (hne : b ≠ a) :
    hupd h a v b = h b := by
  simp [hupd, hne]

theorem seg_nil_inv {h : Heap} {p pend : Option Nat} (hs : ChainSeg h p [] pend) :
    p = pend := by
  cases hs
  rfl

theorem seg_cons_inv {h : Heap} {p pend : Option Nat} {a : Nat} {l : List Nat}
    (hs : ChainSeg h p (a :: l) pend) : p = some a ∧ ChainSeg h (h a) l pend := by
  cases hs
  exact ⟨rfl, by assumption⟩

theorem chain_none_inv {h : Heap} {l : List Nat} (hs : ChainSeg h none l none) :
    l = [] := by
  cases hs
  rfl

theorem seg_join {h : Heap} : ∀ {l1 : List Nat} {l2 : List Nat} {p q r : Option Nat},
    ChainSeg h p l1 q → ChainSeg h q l2 r → ChainSeg h p (l1 ++ l2) r := by
  intro l1
  induction l1 with
  | nil =>
      intro l2 p q r h1 h2
      rw [seg_nil_inv h1]
      simpa using h2
  | cons a t ih =>
      intro l2 p q r h1 h2
      obtain ⟨hp, ht⟩ := seg_cons_inv h1
      subst hp
      exact ChainSeg.cons (ih ht h2)

theorem seg_split {h : Heap} : ∀ {l1 l2 : List Nat} {p r : Option Nat},
    ChainSeg h p (l1 ++ l2) r → ∃ q, ChainSeg h p l1 q ∧ ChainSeg h q l2 r := by
  intro l1
  induction l1 with
  | nil =>
      intro l2 p r hs
      exact ⟨p, ChainSeg.nil p, by simpa using hs⟩
  | cons a t ih =>
      intro l2 p r hs
      obtain ⟨hp, ht⟩ := seg_cons_inv hs
      subst hp
      obtain ⟨q, hq1, hq2⟩ := ih ht
      exact ⟨q, ChainSeg.cons hq1, hq2⟩

theorem seg_frame {h : Heap} {a : Nat} {v : Option Nat} :
    ∀ {l : List Nat} {p pend : Option Nat},
    a ∉ l → ChainSeg h p l pend → ChainSeg (hupd h a v) p l pend := by
  intro l
  induction l with
  | nil =>
      intro p pend _ hs
      rw [seg_nil_inv hs]
      exact ChainSeg.nil _
  | cons b t ih =>
      intro p pend hmem hs
      obtain ⟨hp, ht⟩ := seg_cons_inv hs
      subst hp
      have hba : b ≠ a := fun hba => hmem (hba ▸ List.mem_cons_self b t)
      have htail : ChainSeg (hupd h a v) (h b) t pend :=
        ih (fun hm => hmem (List.mem_cons_of_mem _ hm)) ht
      refine ChainSeg.cons ?_
      rw [hupd_ne h a b v hba]
      exact htail

theorem chain_fun {h : Heap} : ∀ {l l' : List Nat} {p : Option Nat},
    ChainSeg h p l none → ChainSeg h p l' none → l = l' := by
  intro l
  induction l with
  | nil =>
      intro l' p h1 h2
      have hp := seg_nil_inv h1
      subst hp
      cases l' with
      | nil => rfl
      | cons b t =>
          obtain ⟨hb, -⟩ := seg_cons_inv h2
          simp at hb
  | cons a t ih =>
      intro l' p h1 h2
      obtain ⟨hp, ht⟩ := seg_cons_inv h1
      subst hp
      cases l' with
      | nil =>
          have := seg_nil_inv h2
          simp at this
      | cons b t' =>
          obtain ⟨hb, ht'⟩ := seg_cons_inv h2
          have hab : a = b := by
            have := hb.symm.trans rfl
            injection hb
          subst hab
          rw [ih ht ht']

theorem chain_nodup {h : Heap} : ∀ {l : List Nat} {p : Option Nat},
    ChainSeg h p l none → l.Nodup := by
  intro l
  induction l with
  | nil =>
      intro p _
      exact List.nodup_nil
  | cons a t ih =>
      intro p hs
      obtain ⟨hp, ht⟩ := seg_cons_inv hs
      subst hp
      refine List.nodup_cons.2 ⟨?_, ih ht⟩
      intro hmem
      obtain ⟨l1, l2, hdec⟩ := List.append_of_mem hmem
      subst hdec
      obtain ⟨q, hq1, hq2⟩ := seg_split ht
      obtain ⟨hq, ht2⟩ := seg_cons_inv hq2
      subst hq
      have heq : a :: (l1 ++ a :: l2) = a :: l2 := chain_fun hs hq2
      have hlen := congrArg List.length heq
      simp at hlen
      omega

theorem chain_advanceTail {h : Heap} : ∀ {l : List Nat} {p : Option Nat},
    ChainSeg h p l none → ∀ k, advanceTail h p k = l[k]? := by
  intro l
  induction l with
  | nil =>
      intro p hs k
      have hp := seg_nil_inv hs
      subst hp
      cases k <;> simp [advanceTail]
  | cons a t ih =>
      intro p hs k
      obtain ⟨hp, ht⟩ := seg_cons_inv hs
      subst hp
      cases k with
      | zero => simp [advanceTail]
      | succ m => simpa [advanceTail] using ih ht m

/-! Specifications of the queue operations against the chain abstraction. -/

theorem popFront_none {h : Heap} {q : QState} (hq : q.mHead = none) :
    popFront h q = (none, q) := by
  simp [popFront, hq]

theorem popFront_of_head {h : Heap} {q : QState} {a : Nat} (hq : q.mHead = some a) :
    popFront h q =
      (some a, { mHead := h a, mTail := if h a = none then none else q.mTail }) := by
  simp [popFront, hq]

theorem pushBack_spec {h : Heap} {q : QState} {l : List Nat} {a : Nat}
    (hc : ChainSeg h q.mHead l none) (htl : q.mTail = l.getLast?) (hmem : a ∉ l) :
    ChainSeg (pushBack h q a).1 (pushBack h q a).2.mHead (l ++ [a]) none ∧
    (pushBack h q a).2.mTail = some a := by
  rcases List.eq_nil_or_concat l with rfl | ⟨l2, t, rfl⟩
  · have ht : q.mTail = none := by simpa using htl
    constructor
    · simp only [pushBack, ht]
      refine ChainSeg.cons ?_
      rw [hupd_self]
      exact ChainSeg.nil none
    · simp [pushBack, ht]
  · simp only [List.concat_eq_append] at hc htl hmem ⊢
    have ht : q.mTail = some t := by rw [htl, List.getLast?_concat]
    have hnd := chain_nodup hc
    have htl2 : t ∉ l2 := by
      simp [List.nodup_append] at hnd
      exact hnd.2
    have hal2 : a ∉ l2 := fun hm => hmem (List.mem_append.2 (Or.inl hm))
    have hat : a ≠ t := by
      intro hat
      exact hmem (List.mem_append.2 (Or.inr (by simp [hat])))
    obtain ⟨pq, h1, h2⟩ := seg_split hc
    obtain ⟨hpq, h3⟩ := seg_cons_inv h2
    subst hpq
    constructor
    · simp only [pushBack, ht]
      have hseg : ChainSeg (hupd (hupd h a none) t (some a)) q.mHead l2 (some t) :=
        seg_frame htl2 (seg_frame hal2 h1)
      have hmid : ChainSeg (hupd (hupd h a none) t (some a)) (some t) [t, a] none := by
        refine ChainSeg.cons ?_
        rw [hupd_self]
        refine ChainSeg.cons ?_
        rw [hupd_ne _ t a (some a) (fun hh => hat hh), hupd_self]
        exact ChainSeg.nil none
      have := seg_join hseg hmid
      simpa [List.append_assoc] using this
    · simp [pushBack, ht]

theorem popFront_spec {h : Heap} {q : QState} {a : Nat} {l : List Nat}
    (hc : ChainSeg h q.mHead (a :: l) none) (htl : q.mTail = (a :: l).getLast?) :
    (popFront h q).1 = some a ∧
    ChainSeg h (popFront h q).2.mHead l none ∧
    (popFront h q).2.mTail = l.getLast? := by
  obtain ⟨hp, ht⟩ := seg_cons_inv hc
  rw [popFront_of_head hp]
  refine ⟨rfl, ht, ?_⟩
  cases l with
  | nil =>
      have hn : h a = none := seg_nil_inv ht
      simp [hn]
  | cons b t =>
      obtain ⟨hb, -⟩ := seg_cons_inv ht
      rw [htl]
      simp [hb, List.getLast?_cons_cons]

theorem drain_spec {h : Heap} : ∀ {l : List Nat} {q : QState} {fuel : Nat},
    ChainSeg h q.mHead l none → l.length ≤ fuel → (drainGo h q fuel).1 = l := by
  intro l
  induction l with
  | nil =>
      intro q fuel hs _
      have hp := seg_nil_inv hs
      cases fuel with
      | zero => rfl
      | succ f => simp [drainGo, popFront_none hp]
  | cons a t ih =>
      intro q fuel hs hlen
      obtain ⟨hp, ht⟩ := seg_cons_inv hs
      cases fuel with
      | zero => simp at hlen
      | succ f =>
          have hlen2 : t.length ≤ f := by simp at hlen; omega
          simp only [drainGo, popFront_of_head hp]
          have htail : ChainSeg h
              (QState.mk (h a) (if h a = none then none else q.mTail)).mHead t none := ht
          rw [ih htail hlen2]

theorem fromGo_spec : ∀ {l : List Nat} {h : Heap} {p acc : Option Nat} {accList : List Nat}
    {fuel : Nat},
    ChainSeg h p l none → ChainSeg h acc accList none → l.Disjoint accList →
    l.length ≤ fuel →
    ChainSeg (fromGo h acc p fuel).1 (fromGo h acc p fuel).2 (l.reverse ++ accList) none := by
  intro l
  induction l with
  | nil =>
      intro h p acc accList fuel hs hacc _ _
      have hp := seg_nil_inv hs
      subst hp
      cases fuel <;> simpa [fromGo] using hacc
  | cons a t ih =>
      intro h p acc accList fuel hs hacc hdisj hlen
      obtain ⟨hp, ht⟩ := seg_cons_inv hs
      subst hp
      cases fuel with
      | zero => simp at hlen
      | succ f =>
          have hnd : (a :: t).Nodup := chain_nodup hs
          have hat : a ∉ t := (List.nodup_cons.1 hnd).1
          have haacc : a ∉ accList := hdisj (List.mem_cons_self a t)
          have hlen2 : t.length ≤ f := by simp at hlen; omega
          have h1 : ChainSeg (hupd h a acc) (h a) t none := seg_frame hat ht
          have h2 : ChainSeg (hupd h a acc) (some a) (a :: accList) none := by
            refine ChainSeg.cons ?_
            rw [hupd_self]
            exact seg_frame haacc hacc
          have h3 : t.Disjoint (a :: accList) := by
            intro x hx hmem
            rcases List.mem_cons.1 hmem with rfl | hmem2
            · exact hat hx
            · exact hdisj (List.mem_cons_of_mem _ hx) hmem2
          have := ih h1 h2 h3 hlen2
          simpa [fromGo, List.append_assoc] using this

theorem fromQ_drain {h : Heap} {p : Option Nat} {l : List Nat} {fuel fuel2 : Nat}
    (hc : ChainSeg h p l none) (hf : l.length ≤ fuel) (hf2 : l.length ≤ fuel2) :
    (drainGo (fromQ h p fuel).1 (fromQ h p fuel).2 fuel2).1 = l.reverse := by
  have hrev := fromGo_spec hc (ChainSeg.nil none) (by simp [List.Disjoint]) hf
  rw [List.append_nil] at hrev
  exact drain_spec hrev (by simpa using hf2)

theorem atomicPushAll_spec : ∀ {ts : List Nat} {h : Heap} {head : Option Nat} {cs : List Nat},
    ChainSeg h head cs none → ts.Nodup → ts.Disjoint cs →
    ChainSeg (atomicPushAll h head ts).1 (atomicPushAll h head ts).2 (ts.reverse ++ cs) none := by
  intro ts
  induction ts with
  | nil =>
      intro h head cs hc _ _
      simpa [atomicPushAll] using hc
  | cons t ts ih =>
      intro h head cs hc hnd hdisj
      have hnd2 := List.nodup_cons.1 hnd
      have h1 : ChainSeg (hupd h t head) (some t) (t :: cs) none := by
        refine ChainSeg.cons ?_
        rw [hupd_self]
        exact seg_frame (hdisj (List.mem_cons_self t ts)) hc
      have h3 : ts.Disjoint (t :: cs) := by
        intro x hx hmem
        rcases List.mem_cons.1 hmem with rfl | hm2
        · exact hnd2.1 hx
        · exact hdisj (List.mem_cons_of_mem _ hx) hm2
      have := ih h1 hnd2.2 h3
      simpa [atomicPushAll, atomicPushFront, List.append_assoc] using this

theorem popFrontN_spec {h : Heap} {q : QState} {l : List Nat} (n : Nat)
    (hc : ChainSeg h q.mHead l none) :
    ChainSeg (popFrontN h q n).1 (popFrontN h q n).2.2.mHead (l.take (max n 1)) none ∧
    ChainSeg (popFrontN h q n).1 (popFrontN h q n).2.1.mHead (l.drop (max n 1)) none := by
  have hadv : advanceTail h q.mHead (n - 1) = l[n - 1]? := chain_advanceTail hc (n - 1)
  obtain ⟨k, hk⟩ : ∃ k, max n 1 = k + 1 := ⟨max n 1 - 1, by omega⟩
  have hnk : n - 1 = k := by omega
  have hadv2 : advanceTail h q.mHead (n - 1) = l[k]? := by rw [hadv, hnk]
  rw [hk]
  by_cases hlt : k < l.length
  · have hsome : l[k]? = some (l[k]) := List.getElem?_eq_getElem hlt
    have hdec : l.drop k = l[k] :: l.drop (k + 1) := List.drop_eq_getElem_cons hlt
    have hsplit : l = l.take k ++ (l[k] :: l.drop (k + 1)) := by
      rw [← hdec, List.take_append_drop]
    obtain ⟨pq, h1, h2⟩ := seg_split (hsplit ▸ hc)
    obtain ⟨hpq, h3⟩ := seg_cons_inv h2
    have hnd := chain_nodup hc
    have hnodup2 : (l.take k ++ (l[k] :: l.drop (k + 1))).Nodup := hsplit ▸ hnd
    rw [List.nodup_append] at hnodup2
    have htk : l[k] ∉ l.take k :=
      fun hmm => hnodup2.2.2 hmm (List.mem_cons_self _ _)
    have hdr : l[k] ∉ l.drop (k + 1) := (List.nodup_cons.1 hnodup2.2.1).1
    simp only [popFrontN, hadv2, hsome]
    constructor
    · have hA : ChainSeg (hupd h (l[k]) none) q.mHead (l.take k) pq :=
        seg_frame htk h1
      have hB : ChainSeg (hupd h (l[k]) none) (some (l[k])) [l[k]] none := by
        refine ChainSeg.cons ?_
        rw [hupd_self]
        exact ChainSeg.nil none
      have hjoin := seg_join (hpq ▸ hA) hB
      have htake : l.take k ++ [l[k]] = l.take (k + 1) := by
        rw [List.take_succ, hsome]
        rfl
      rw [htake] at hjoin
      exact hjoin
    · exact seg_frame hdr h3
  · have hnone : l[k]? = none := List.getElem?_eq_none (by omega)
    have htake : l.take (k + 1) = l := List.take_of_length_le (by omega)
    have hdrop : l.drop (k + 1) = [] := List.drop_eq_nil_of_le (by omega)
    simp only [popFrontN, hadv2, hnone, htake, hdrop]
    exact ⟨hc, ChainSeg.nil none⟩

theorem appendQ_spec {h : Heap} {A B : QState} {la lb : List Nat}
    (hca : ChainSeg h A.mHead la none) (hta : A.mTail = la.getLast?)
    (hcb : ChainSeg h B.mHead lb none) (htb : B.mTail = lb.getLast?)
    (hdisj : la.Disjoint lb) :
    (appendQ h A B).2.2 = ⟨none, none⟩ ∧
    ChainSeg (appendQ h A B).1 (appendQ h A B).2.1.mHead (la ++ lb) none ∧
    (appendQ h A B).2.1.mTail = (la ++ lb).getLast? := by
  cases lb with
  | nil =>
      have hbh : B.mHead = none := seg_nil_inv hcb
      have hbt : B.mTail = none := by simpa using htb
      have hbeq : B = ⟨none, none⟩ := by
        cases B
        simp_all
      rw [appendQ, if_pos hbh]
      refine ⟨hbeq, by simpa using hca, by simpa using hta⟩
  | cons b lb2 =>
      obtain ⟨hbh, -⟩ := seg_cons_inv hcb
      have hbne : ¬(B.mHead = none) := by rw [hbh]; simp
      rcases List.eq_nil_or_concat la with rfl | ⟨la3, t, rfl⟩
      · have hah : A.mHead = none := seg_nil_inv hca
        rw [appendQ, if_neg hbne, if_pos hah]
        exact ⟨rfl, hcb, htb⟩
      · simp only [List.concat_eq_append] at hca hta hdisj ⊢
        have hane : ¬(A.mHead = none) := by
          intro hah
          have := chain_none_inv (hah ▸ hca)
          simp at this
        have hat : A.mTail = some t := by rw [hta, List.getLast?_concat]
        obtain ⟨pq, h1, h2⟩ := seg_split hca
        obtain ⟨hpq, -⟩ := seg_cons_inv h2
        have hnd := chain_nodup hca
        rw [List.nodup_append] at hnd
        have htla3 : t ∉ la3 := fun hmm => hnd.2.2 hmm (List.mem_cons_self _ _)
        have htlb : t ∉ b :: lb2 :=
          hdisj (List.mem_append.2 (Or.inr (List.mem_cons_self _ _)))
        rw [appendQ, if_neg hbne, if_neg hane]
        refine ⟨rfl, ?_, ?_⟩
        · show ChainSeg (setNext h A.mTail B.mHead) A.mHead ((la3 ++ [t]) ++ b :: lb2) none
          rw [hat]
          show ChainSeg (hupd h t B.mHead) A.mHead ((la3 ++ [t]) ++ b :: lb2) none
          have hA2 : ChainSeg (hupd h t B.mHead) A.mHead la3 pq := seg_frame htla3 h1
          have hmid : ChainSeg (hupd h t B.mHead) (some t) (t :: (b :: lb2)) none := by
            refine ChainSeg.cons ?_
            rw [hupd_self]
            exact seg_frame htlb hcb
          have hjoin := seg_join (hpq ▸ hA2) hmid
          exact (by simpa [List.append_assoc] using hjoin)
        · show B.mTail = ((la3 ++ [t]) ++ b :: lb2).getLast?
          rw [htb, List.getLast?_append_of_ne_nil _ (by simp)]

theorem runOps_spec : ∀ {ops : List QOp} {h : Heap} {q : QState} {l : List Nat},
    ChainSeg h q.mHead l none → q.mTail = l.getLast? →
    (pushesOf ops).Nodup → (pushesOf ops).Disjoint l →
    (runOps h q ops).2.2 <+: l ++ pushesOf ops := by
  intro ops
  induction ops with
  | nil =>
      intro h q l _ _ _ _
      simp [runOps]
  | cons op ops ih =>
      intro h q l hc htl hnd hdisj
      cases op with
      | push a =>
          have hmemp : a ∈ pushesOf (QOp.push a :: ops) := by simp [pushesOf]
          have ha : a ∉ l := hdisj hmemp
          obtain ⟨hc2, htl2⟩ := pushBack_spec hc htl ha
          have hndc : a ∉ pushesOf ops ∧ (pushesOf ops).Nodup := by
            simpa [pushesOf] using hnd
          have htl2b : (pushBack h q a).2.mTail = (l ++ [a]).getLast? := by
            rw [htl2, List.getLast?_concat]
          have hdisj2 : (pushesOf ops).Disjoint (l ++ [a]) := by
            intro x hx hmem
            rcases List.mem_append.1 hmem with hm | hm
            · exact hdisj (by simp [pushesOf, hx]) hm
            · simp at hm
              subst hm
              exact hndc.1 hx
          have := ih hc2 htl2b hndc.2 hdisj2
          simpa [runOps, pushesOf, List.append_assoc] using this
      | pop =>
          cases l with
          | nil =>
              have hq : q.mHead = none := seg_nil_inv hc
              have hdisj2 : (pushesOf ops).Disjoint ([] : List Nat) := by
                intro x hx hmem
                simp at hmem
              have := ih hc htl (by simpa [pushesOf] using hnd) hdisj2
              simpa [runOps, popFront_none hq, pushesOf] using this
          | cons x l2 =>
              obtain ⟨h1, h2, h3⟩ := popFront_spec hc htl
              have hdisj2 : (pushesOf ops).Disjoint l2 := by
                intro y hy hmem
                exact hdisj (by simpa [pushesOf] using hy) (List.mem_cons_of_mem _ hmem)
              have := ih h2 h3 (by simpa [pushesOf] using hnd) hdisj2
              simp only [runOps, h1, pushesOf]
              simp only [List.cons_append]
              exact List.cons_prefix_cons.2 ⟨rfl, this⟩

/-! The lock-free stack round trip. -/

theorem stackRoundTrip_eq (h : Heap) (ts : List Nat) (hnd : ts.Nodup) :
    stackRoundTrip h ts = ts := by
  have hdisj : ts.Disjoint ([] : List Nat) := by
    intro x hx hmem
    simp at hmem
  have hpush := atomicPushAll_spec
      (show ChainSeg h none [] none from ChainSeg.nil none) hnd hdisj
  rw [List.append_nil] at hpush
  have hdrain : (drainGo
      (fromQ (atomicPushAll h none ts).1 (atomicPushAll h none ts).2 ts.length).1
      (fromQ (atomicPushAll h none ts).1 (atomicPushAll h none ts).2 ts.length).2
      ts.length).1 = ts.reverse.reverse :=
    fromQ_drain hpush (by simp) (by simp)
  simpa [stackRoundTrip, atomicPopAll] using hdrain

/-! The elastic pool's counters. -/

theorem growPoolGo_spec : ∀ (fuel : Nat) (s : PoolCounters),
    s.mThreadLimits ≤ s.mThreadCount + fuel →
    (growPoolGo s fuel).1.mQueueSize = s.mQueueSize ∧
    (growPoolGo s fuel).1.mThreadLimits = s.mThreadLimits ∧
    (growPoolGo s fuel).1.mThreadCount = s.mThreadCount + (growPoolGo s fuel).2 ∧
    (growPoolGo s fuel).1.mIdleCount = s.mIdleCount + (growPoolGo s fuel).2 ∧
    ¬((growPoolGo s fuel).1.mQueueSize > (growPoolGo s fuel).1.mIdleCount * 5 ∧
      (growPoolGo s fuel).1.mThreadCount < (growPoolGo s fuel).1.mThreadLimits) ∧
    (s.mThreadCount ≤ s.mThreadLimits →
      (growPoolGo s fuel).1.mThreadCount ≤ s.mThreadLimits) ∧
    (s.mQueueSize > s.mIdleCount * 5 ∧ s.mThreadCount < s.mThreadLimits ∧ 1 ≤ fuel →
      1 ≤ (growPoolGo s fuel).2) := by
  intro fuel
  induction fuel with
  | zero =>
      intro s hle
      refine ⟨rfl, rfl, rfl, rfl, ?_, fun hcl => hcl, ?_⟩
      · show ¬(s.mQueueSize > s.mIdleCount * 5 ∧ s.mThreadCount < s.mThreadLimits)
        omega
      · intro hcc
        exact absurd hcc.2.2 (by omega)
  | succ f ih =>
      intro s hle
      by_cases hg : s.mQueueSize > s.mIdleCount * 5 ∧ s.mThreadCount < s.mThreadLimits
      · rcases hres : growPoolGo { s with mThreadCount := s.mThreadCount + 1,
                                          mIdleCount := s.mIdleCount + 1 } f with ⟨r, k⟩
        have hgo : growPoolGo s (f + 1) = (r, k + 1) := by
          simp [growPoolGo, hg, hres]
        have hstep := ih { s with mThreadCount := s.mThreadCount + 1,
                                  mIdleCount := s.mIdleCount + 1 } (by simp; omega)
        rw [hres] at hstep
        dsimp only at hstep
        obtain ⟨e1, e2, e3, e4, e5, e6, e7⟩ := hstep
        rw [hgo]
        refine ⟨e1, e2, ?_, ?_, e5, ?_, ?_⟩
        · show r.mThreadCount = s.mThreadCount + (k + 1)
          omega
        · show r.mIdleCount = s.mIdleCount + (k + 1)
          omega
        · intro hcl
          show r.mThreadCount ≤ s.mThreadLimits
          have h6 := e6 (by omega)
          omega
        · intro hcc
          show 1 ≤ k + 1
          omega
      · have hgo : growPoolGo s (f + 1) = (s, 0) := by
          simp [growPoolGo, hg]
        rw [hgo]
        refine ⟨rfl, rfl, rfl, rfl, hg, fun hcl => hcl, ?_⟩
        intro hcontra
        exact absurd ⟨hcontra.1, hcontra.2.1⟩ hg

theorem growPoolGo_queueSize : ∀ (fuel : Nat) (s : PoolCounters),
    (growPoolGo s fuel).1.mQueueSize = s.mQueueSize := by
  intro fuel
  induction fuel with
  | zero =>
      intro s
      rfl
  | succ f ih =>
      intro s
      by_cases hg : s.mQueueSize > s.mIdleCount * 5 ∧ s.mThreadCount < s.mThreadLimits
      · simp only [growPoolGo, if_pos hg]
        rw [ih]
      · simp [growPoolGo, hg]

theorem estep_queueSize {s s2 : EPoolState} {e : EEvent} (hs : EStep s e s2) :
    s2.counters.mQueueSize =
      s.counters.mQueueSize + (if isEnqueueEv e then 1 else 0) := by
  cases hs with
  | enqueue task => simp [isEnqueueEv, growPool, growPoolGo_queueSize]
  | beginBusy => simp [isEnqueueEv]
  | popExec task hpop => simp [isEnqueueEv, growPool, growPoolGo_queueSize]
  | goIdle => simp [isEnqueueEv]
  | timeoutExit hq => simp [isEnqueueEv]

/-! Claim theorems. -/

/-- C1 counterexample: the claim also covers `k = 0`, but `popFront(0)` on the
two-element queue `0 -> 1` returns a queue that drains to `[0]` — one element,
not the zero elements the claim requires (the cursor loop `for (i = 1; i < n; ...)`
never runs for `n = 0`, so the cut still happens after the first node). -/
theorem c1_counterexample :
    ChainSeg hPair qPair.mHead [0, 1] none ∧
    (drainGo (popFrontN hPair qPair 0).1 (popFrontN hPair qPair 0).2.2 2).1 = [0] ∧
    ¬((drainGo (popFrontN hPair qPair 0).1 (popFrontN hPair qPair 0).2.2 2).1 = []) :=
  ⟨ChainSeg.cons (ChainSeg.cons (ChainSeg.nil none)), by decide, by decide⟩

/-- C1 (amended): `popFront(n)` on a queue holding chain `l` behaves as
`popFront(max n 1)`: the returned queue drains to the first `max n 1` elements
in order and the remainder drains to the rest in order; for `1 ≤ k ≤ L` and
for `k > L` this is exactly the original claim, while `k = 0` acts as `k = 1`. -/
theorem c1_thm (h : Heap) (q : QState) (l : List Nat) (n : Nat)
    (hc : ChainSeg h q.mHead l none) :
    (drainGo (popFrontN h q n).1 (popFrontN h q n).2.2 l.length).1 = l.take (max n 1) ∧
    (drainGo (popFrontN h q n).1 (popFrontN h q n).2.1 l.length).1 = l.drop (max n 1) := by
  obtain ⟨h1, h2⟩ := popFrontN_spec n hc
  refine ⟨drain_spec h1 ?_, drain_spec h2 ?_⟩
  · simp [List.length_take]
  · simp [List.length_drop]

/-- C1 witness: `popFront(1)` on the queue `0 -> 1` splits it into `[0]` and `[1]`. -/
theorem c1_witness :
    ChainSeg hPair qPair.mHead [0, 1] none ∧
    ((drainGo (popFrontN hPair qPair 1).1 (popFrontN hPair qPair 1).2.2
        ([0, 1] : List Nat).length).1 = [0, 1].take (max 1 1) ∧
     (drainGo (popFrontN hPair qPair 1).1 (popFrontN hPair qPair 1).2.1
        ([0, 1] : List Nat).length).1 = [0, 1].drop (max 1 1)) :=
  ⟨ChainSeg.cons (ChainSeg.cons (ChainSeg.nil none)),
   c1_thm hPair qPair [0, 1] 1 (ChainSeg.cons (ChainSeg.cons (ChainSeg.nil none)))⟩

/-- C2: evaluating the code at the failing input.  On the valid one-element
queue `[0]` (head and tail both `0`, tail invariant holds), `popFront(1)`
leaves the remainder with `mHead = none` but `mTail = some 0`: the cut branch
of `Queue::popFront(n)` never clears `this->mTail`, so the tail-absent-iff-empty
invariant is violated, contradicting the invariant stated by the spec and
maintained by every other operation. -/
theorem c2_thm :
    ChainSeg hNil qOne.mHead [0] none ∧
    tailInvariant qOne = true ∧
    (popFrontN hNil qOne 1).2.1.mHead = none ∧
    (popFrontN hNil qOne 1).2.1.mTail = some 0 ∧
    tailInvariant (popFrontN hNil qOne 1).2.1 = false :=
  ⟨ChainSeg.cons (ChainSeg.nil none), by decide, by decide, by decide, by decide⟩

/-- C3 counterexample: `from` on the chain `0 -> 1` yields a queue that drains
to `[1, 0]`, the reverse of the chain's traversal order, so the claim that it
iterates first chain element first is false. -/
theorem c3_counterexample :
    ChainSeg hPair (some 0) [0, 1] none ∧
    (drainGo (fromQ hPair (some 0) 2).1 (fromQ hPair (some 0) 2).2 2).1 = [1, 0] ∧
    ¬((drainGo (fromQ hPair (some 0) 2).1 (fromQ hPair (some 0) 2).2 2).1 = [0, 1]) :=
  ⟨ChainSeg.cons (ChainSeg.cons (ChainSeg.nil none)), by decide, by decide⟩

/-- C3 (amended): `from(rawLinkedList)` reverses the links, so the resulting
queue drains in the REVERSE of the chain's traversal order (last chain element
first).  This is what `popAll` relies on: a chain built by prepending comes
back in insertion order. -/
theorem c3_thm (h : Heap) (p : Option Nat) (l : List Nat) (hc : ChainSeg h p l none) :
    (drainGo (fromQ h p l.length).1 (fromQ h p l.length).2 l.length).1 = l.reverse :=
  fromQ_drain hc le_rfl le_rfl

/-- C3 witness: `from` on the chain `0 -> 1` drains to `[1, 0]`. -/
theorem c3_witness :
    ChainSeg hPair (some 0) [0, 1] none ∧
    (drainGo (fromQ hPair (some 0) ([0, 1] : List Nat).length).1
             (fromQ hPair (some 0) ([0, 1] : List Nat).length).2
             ([0, 1] : List Nat).length).1 = [0, 1].reverse :=
  ⟨ChainSeg.cons (ChainSeg.cons (ChainSeg.nil none)),
   c3_thm hPair (some 0) [0, 1] (ChainSeg.cons (ChainSeg.cons (ChainSeg.nil none)))⟩

/-- C4: tasks pushed by a single producer into the empty lock-free stack come
back from `popAll` in exactly the push order: pushing the distinct tasks `ts`
in order and then draining `popAll`'s queue yields `ts` itself. -/
theorem c4_thm (h : Heap) (ts : List Nat) (hnd : ts.Nodup) :
    stackRoundTrip h ts = ts :=
  stackRoundTrip_eq h ts hnd

/-- C4 witness: pushing `[0, 1, 2]` and draining `popAll` returns `[0, 1, 2]`. -/
theorem c4_witness :
    ([0, 1, 2] : List Nat).Nodup ∧ stackRoundTrip hNil [0, 1, 2] = [0, 1, 2] :=
  ⟨by decide, c4_thm hNil [0, 1, 2] (by decide)⟩

/-- C5: `ThreadState::pop` returns null (making the worker terminate) only
when the queue is empty AND the stop flag is set, and whenever the queue is
non-empty it returns the front task — so tasks queued before the flag is
observed are still handed out. -/
theorem c5_thm (h : Heap) (q : QState) (stopRequested : Bool) :
    (∀ q2, threadStatePop h q stopRequested = PopOutcome.ret none q2 →
        q.mHead = none ∧ stopRequested = true) ∧
    (¬(q.mHead = none) →
        ∃ t, threadStatePop h q stopRequested = PopOutcome.ret (some t) (popFront h q).2) := by
  constructor
  · intro q2 hret
    by_cases hq : q.mHead = none
    · refine ⟨hq, ?_⟩
      cases stopRequested with
      | false => simp [threadStatePop, hq] at hret
      | true => rfl
    · obtain ⟨a, ha⟩ := Option.ne_none_iff_exists'.1 hq
      simp [threadStatePop, hq, popFront_of_head ha] at hret
  · intro hq
    obtain ⟨a, ha⟩ := Option.ne_none_iff_exists'.1 hq
    refine ⟨a, ?_⟩
    simp [threadStatePop, hq, popFront_of_head ha]

/-- C5 witness: with task `3` queued, `pop` returns it even with the flag unset. -/
theorem c5_witness :
    ¬((⟨some 3, some 3⟩ : QState).mHead = none) ∧
    (∃ t, threadStatePop hNil ⟨some 3, some 3⟩ false =
        PopOutcome.ret (some t) (popFront hNil ⟨some 3, some 3⟩).2) :=
  ⟨by decide, (c5_thm hNil ⟨some 3, some 3⟩ false).2 (by decide)⟩

/-- C6: `growPool` leaves the pending count and the limit unchanged, spawns one
worker per loop iteration — incrementing the live and the idle counter once per
spawned worker — spawns at least one worker whenever the guard holds on entry,
and on return either `pending <= idle * 5` or the live count equals the limit. -/
theorem c6_thm (s : PoolCounters) (hcl : s.mThreadCount ≤ s.mThreadLimits) :
    (growPool s).1.mQueueSize = s.mQueueSize ∧
    (growPool s).1.mThreadLimits = s.mThreadLimits ∧
    (growPool s).1.mThreadCount = s.mThreadCount + (growPool s).2 ∧
    (growPool s).1.mIdleCount = s.mIdleCount + (growPool s).2 ∧
    (s.mQueueSize > s.mIdleCount * 5 ∧ s.mThreadCount < s.mThreadLimits →
      1 ≤ (growPool s).2) ∧
    ((growPool s).1.mQueueSize ≤ (growPool s).1.mIdleCount * 5 ∨
      (growPool s).1.mThreadCount = s.mThreadLimits) := by
  obtain ⟨e1, e2, e3, e4, e5, e6, e7⟩ :=
    growPoolGo_spec (s.mThreadLimits - s.mThreadCount) s (by omega)
  have h6 := e6 hcl
  simp only [growPool]
  refine ⟨e1, e2, e3, e4, ?_, by omega⟩
  intro hg
  exact e7 ⟨hg.1, hg.2, by omega⟩

/-- C6 witness: 100 pending tasks, no workers, limit 2 — `growPool` spawns up
to the limit and stops there. -/
theorem c6_witness :
    cW.mThreadCount ≤ cW.mThreadLimits ∧
    ((growPool cW).1.mQueueSize = cW.mQueueSize ∧
     (growPool cW).1.mThreadLimits = cW.mThreadLimits ∧
     (growPool cW).1.mThreadCount = cW.mThreadCount + (growPool cW).2 ∧
     (growPool cW).1.mIdleCount = cW.mIdleCount + (growPool cW).2 ∧
     (cW.mQueueSize > cW.mIdleCount * 5 ∧ cW.mThreadCount < cW.mThreadLimits →
       1 ≤ (growPool cW).2) ∧
     ((growPool cW).1.mQueueSize ≤ (growPool cW).1.mIdleCount * 5 ∨
       (growPool cW).1.mThreadCount = cW.mThreadLimits)) :=
  ⟨by decide, c6_thm cW (by decide)⟩

/-- C7: the FIFO law — for any sequence of `pushBack`/`popFront` calls on one
queue that starts empty (with distinct pushed tasks), the tasks returned by the
successful `popFront` calls form a prefix of the pushed tasks in push order. -/
theorem c7_thm (h : Heap) (ops : List QOp) (hnd : (pushesOf ops).Nodup) :
    (runOps h ⟨none, none⟩ ops).2.2 <+: pushesOf ops := by
  have hdisj : (pushesOf ops).Disjoint ([] : List Nat) := by
    intro x hx hmem
    simp at hmem
  have hrun := @runOps_spec ops h ⟨none, none⟩ [] (ChainSeg.nil none) rfl hnd hdisj
  simpa using hrun

/-- C7 witness: an interleaved push/pop sequence pops `[1, 2, 3]`, a prefix of
the push order `[1, 2, 3]`. -/
theorem c7_witness :
    (pushesOf [QOp.push 1, QOp.push 2, QOp.pop, QOp.push 3, QOp.pop,
        QOp.pop, QOp.pop]).Nodup ∧
    (runOps hNil ⟨none, none⟩ [QOp.push 1, QOp.push 2, QOp.pop, QOp.push 3, QOp.pop,
        QOp.pop, QOp.pop]).2.2 <+:
      pushesOf [QOp.push 1, QOp.push 2, QOp.pop, QOp.push 3, QOp.pop,
        QOp.pop, QOp.pop] :=
  ⟨by decide, c7_thm hNil _ (by decide)⟩

/-- C8: `append(A, B)` leaves `B` empty immediately, and draining `A` yields
A's elements in their original order followed by B's in their original order. -/
theorem c8_thm (h : Heap) (A B : QState) (la lb : List Nat)
    (hca : ChainSeg h A.mHead la none) (hta : A.mTail = la.getLast?)
    (hcb : ChainSeg h B.mHead lb none) (htb : B.mTail = lb.getLast?)
    (hdisj : la.Disjoint lb) :
    (appendQ h A B).2.2 = ⟨none, none⟩ ∧
    (drainGo (appendQ h A B).1 (appendQ h A B).2.1 (la.length + lb.length)).1 = la ++ lb := by
  obtain ⟨h1, h2, h3⟩ := appendQ_spec hca hta hcb htb hdisj
  exact ⟨h1, drain_spec h2 (by simp)⟩

/-- C8 witness: appending the queue `[1]` to the queue `[0]` empties the former
and drains to `[0, 1]`. -/
theorem c8_witness :
    ChainSeg hNil qOne.mHead [0] none ∧
    (appendQ hNil qOne qOneB).2.2 = ⟨none, none⟩ ∧
    (drainGo (appendQ hNil qOne qOneB).1 (appendQ hNil qOne qOneB).2.1
        (([0] : List Nat).length + ([1] : List Nat).length)).1 = [0] ++ [1] := by
  have hca : ChainSeg hNil qOne.mHead [0] none := ChainSeg.cons (ChainSeg.nil none)
  have hcb : ChainSeg hNil qOneB.mHead [1] none := ChainSeg.cons (ChainSeg.nil none)
  have hdisjW : ([0] : List Nat).Disjoint [1] := by
    intro x hx hmem
    simp at hx hmem
    omega
  obtain ⟨w1, w2⟩ := c8_thm hNil qOne qOneB [0] [1] hca rfl hcb rfl hdisjW
  exact ⟨hca, w1, w2⟩

/-- C9: in every state reachable by the elastic pool's lock-protected sections,
`mQueueSize` equals its initial value plus the number of `enqueue` events:
`enqueue` increments it and no section — in particular not the worker loop's
pop-and-run — ever decrements it, so it records the cumulative total of tasks
ever enqueued, not the current backlog, and that total is what the growth
check compares against `idle * 5`. -/
theorem c9_thm (s0 sN : EPoolState) (tr : List EEvent) (hs : ESteps s0 tr sN) :
    sN.counters.mQueueSize =
      s0.counters.mQueueSize + (tr.filter isEnqueueEv).length := by
  induction hs with
  | nil s => simp
  | cons hstep hrest ih =>
      rename_i s s1 s2 e tr2
      have h1 := estep_queueSize hstep
      rw [List.filter_cons]
      by_cases he : isEnqueueEv e
      · simp only [he, if_pos] at h1
        simp [he]
        omega
      · simp [he] at h1
        simp [he]
        omega

/-- C9 witness: one `enqueue` raises the counter by one. -/
theorem c9_witness :
    ESteps eW0 [EEvent.enqueue 7] eW1 ∧
    eW1.counters.mQueueSize =
      eW0.counters.mQueueSize + ([EEvent.enqueue 7].filter isEnqueueEv).length :=
  have hst : ESteps eW0 [EEvent.enqueue 7] eW1 :=
    ESteps.cons (EStep.enqueue eW0 7) (ESteps.nil eW1)
  ⟨hst, c9_thm eW0 eW1 [EEvent.enqueue 7] hst⟩

/-- C10: any interleaving of the producers' pushes linearizes to some
permutation of the `T * M` distinct tags; after pushing such a permutation,
one `popAll` returns exactly `T * M` tasks, without duplicates, covering
exactly the pushed tags — no loss and no duplication. -/
theorem c10_thm (h : Heap) (T M : Nat) (tags interleaving : List Nat)
    (hperm : interleaving.Perm tags) (hnd : tags.Nodup) (hlen : tags.length = T * M) :
    (stackRoundTrip h interleaving).length = T * M ∧
    (stackRoundTrip h interleaving).Nodup ∧
    (∀ x, x ∈ stackRoundTrip h interleaving ↔ x ∈ tags) := by
  have hnds : interleaving.Nodup := hperm.nodup_iff.2 hnd
  rw [stackRoundTrip_eq h interleaving hnds]
  exact ⟨by rw [hperm.length_eq, hlen], hnds, fun x => hperm.mem_iff⟩

/-- C10 witness: two producers' interleaving `[0, 2, 1, 3]` of the four tags
`[0, 1, 2, 3]` round-trips with full coverage. -/
theorem c10_witness :
    ([0, 2, 1, 3] : List Nat).Perm [0, 1, 2, 3] ∧
    ((stackRoundTrip hNil [0, 2, 1, 3]).length = 2 * 2 ∧
     (stackRoundTrip hNil [0, 2, 1, 3]).Nodup ∧
     (∀ x, x ∈ stackRoundTrip hNil [0, 2, 1, 3] ↔ x ∈ ([0, 1, 2, 3] : List Nat))) :=
  ⟨by decide, c10_thm hNil 2 2 [0, 1, 2, 3] [0, 2, 1, 3] (by decide) (by decide) (by decide)⟩

end Snippets
